import Mathlib

/-
Verification of the gopher-state DFA engine (package dfa).

The embedding models Go strings as byte lists (`Str`), Go maps as
association lists with first-match lookup, and process-terminating
calls (log.Fatal) as an explicit `fatal` outcome.  All definitions are
translated from src/dfa/dfa.go and src/dfa/state.go.
-/

set_option autoImplicit false

namespace GopherState

/-- A Go byte. -/
abbrev Byte := Fin 256

/-- A Go string, modelled as its byte sequence. -/
abbrev Str := List Byte

/-- Byte sequence of an ASCII string literal (convenience for tests). -/
def strBytes (s : String) : Str :=
  s.data.map (fun c => ⟨c.toNat % 256, Nat.mod_lt _ (by norm_num)⟩)

/-- Go map read `m[k]`: first binding with the given key, if any. -/
def mget {κ α : Type} [DecidableEq κ] : List (κ × α) → κ → Option α
  | [], _ => none
  | (k, v) :: rest, k' => if k = k' then some v else mget rest k'

/-- Go map write `m[k] = v`: replaces an existing binding or appends a new one. -/
def mput {κ α : Type} [DecidableEq κ] : List (κ × α) → κ → α → List (κ × α)
  | [], k, v => [(k, v)]
  | (k', v') :: rest, k, v =>
    if k' = k then (k, v) :: rest else (k', v') :: mput rest k v

/-- The Go idiom `if m[k] == nil { m[k] = make(...) }; m[k] = append(m[k], v)`
on a map whose values are slices. -/
def madd {κ β : Type} [DecidableEq κ] : List (κ × List β) → κ → β → List (κ × List β)
  | [], k, v => [(k, [v])]
  | (k', vs) :: rest, k, v =>
    if k' = k then (k', vs ++ [v]) :: rest else (k', vs) :: madd rest k v

/-- Read of a slice-valued map entry, where a missing key reads as the empty slice. -/
def mgetl {κ β : Type} [DecidableEq κ] (m : List (κ × List β)) (k : κ) : List β :=
  (mget m k).getD []

/-- src/dfa/state.go: a named state with its symbol-keyed transition map
and accepting (`Final`) flag. -/
structure State where
  Name : Str
  Transitions : List (Str × Str)
  Final : Bool
deriving DecidableEq

/-- src/dfa/state.go `NewState`: fresh state, no transitions, not final. -/
def NewState (name : Str) : State :=
  { Name := name, Transitions := [], Final := false }

/-- src/dfa/state.go `Via`: look up the transition for a symbol (first
matching key of the map; keys are unique in a Go map). -/
def State.Via (s : State) (symbol : Str) : Option Str :=
  mget s.Transitions symbol

/-- src/dfa/dfa.go `Edge`: a directed connection between two state names. -/
structure Edge where
  From : Str
  To : Str
deriving DecidableEq

/-- src/dfa/dfa.go `DFA`: states keyed by name, the two derived lookup
maps, the freshness flag and the start state name. -/
structure DFA where
  Name : Str
  States : List (Str × State)
  StateLookup : List (List Char × List Str)
  EdgeLookup : List (Str × List Edge)
  Indexed : Bool
  Start : Str
deriving DecidableEq

/-- src/dfa/dfa.go `NewDFA`: zero-valued maps (nil), empty start, not indexed. -/
def NewDFA (name : Str) : DFA :=
  { Name := name, States := [], StateLookup := [], EdgeLookup := [],
    Indexed := false, Start := [] }

/-- src/dfa/dfa.go `SetStart`. -/
def DFA.SetStart (m : DFA) (state : Str) : DFA := { m with Start := state }

/-- src/dfa/dfa.go `GetStart`. -/
def DFA.GetStart (m : DFA) : Str := m.Start

/-- src/dfa/state.go `SetState` (the revision at state.go:116): registers the
state under its name and marks the indexes stale. -/
def DFA.SetState (m : DFA) (state : State) : DFA :=
  { m with States := mput m.States state.Name state, Indexed := false }

/-- src/dfa/dfa.go `SetState` (the revision at dfa.go:48): registers the
state under its name; the `Indexed` flag is left untouched. -/
def DFA.SetStateV0 (m : DFA) (state : State) : DFA :=
  { m with States := mput m.States state.Name state }

/-- src/dfa/state.go `SetStates`: repeated `SetState`. -/
def DFA.SetStates (m : DFA) (states : List State) : DFA :=
  states.foldl DFA.SetState m

/-- src/dfa/dfa.go `SetStates` (the dfa.go:55 revision): repeated map
writes with no index invalidation. -/
def DFA.SetStatesV0 (m : DFA) (states : List State) : DFA :=
  states.foldl DFA.SetStateV0 m

/-- src/dfa/state.go `GetState`: the state registered under a name, if any. -/
def DFA.GetState (m : DFA) (name : Str) : Option State := mget m.States name

/-- src/dfa/state.go `StateExists`. -/
def DFA.StateExists (m : DFA) (name : Str) : Bool := (mget m.States name).isSome

/-- The `errStateNotExistent` message constant. -/
def errStateNotExistent : Str := strBytes "state not existent"

/-- Result of `Step`, mirroring Go's `(string, bool, error)` triple:
either a non-nil error, or a next-state name with a found flag. -/
inductive StepResult where
  | err : Str → StepResult
  | ok : Str → Bool → StepResult
deriving DecidableEq

/-- src/dfa/dfa.go `Step`: error when the state is unknown, otherwise the
transition target with a found flag (`("", false)` when no transition). -/
def DFA.Step (m : DFA) (state symbol : Str) : StepResult :=
  match mget m.States state with
  | none => .err errStateNotExistent
  | some st =>
    match st.Via symbol with
    | some next => .ok next true
    | none => .ok [] false

/-- Lowercase hex digit character for a nibble, as in Go's encoding/hex. -/
def hexDigit (n : Nat) : Char :=
  if n < 10 then Char.ofNat (48 + n) else Char.ofNat (87 + n)

/-- Go `hex.EncodeToString`: two hex digits per byte. -/
def hexEncode : Str → List Char
  | [] => []
  | b :: rest => hexDigit (b.val / 16) :: hexDigit (b.val % 16) :: hexEncode rest

/-- The `directionDelimiter` constant, the bytes of the two-character arrow. -/
def directionDelimiter : Str := [45, 62]

/-- src/dfa/dfa.go `buildKey` (dfa.go:88): hex encoding of
`from + "->" + to`. -/
def buildKey (f t : Str) : List Char :=
  hexEncode (f ++ directionDelimiter ++ t)

/-- The two lookup maps built by `Index`. -/
abbrev SL := List (List Char × List Str)
abbrev EL := List (Str × List Edge)

/-- Inner loop of `Index` (dfa.go:102): for every outgoing symbol of the
target state, record the target under the composite pair key. -/
def slAdd (symbol1 transition : Str) : List (Str × Str) → SL → SL
  | [], sl => sl
  | (symbol2, _) :: rest, sl =>
    slAdd symbol1 transition rest (madd sl (buildKey symbol1 symbol2) transition)

/-- Middle loop of `Index` (dfa.go:100): process every transition of one
state; `none` models the nil-pointer fault on a dangling target. -/
def indexTransitions (full : List (Str × State)) (pname : Str) :
    List (Str × Str) → SL × EL → Option (SL × EL)
  | [], acc => some acc
  | (symbol1, transition) :: rest, acc =>
    match mget full transition with
    | none => none
    | some q =>
      indexTransitions full pname rest
        (slAdd symbol1 transition q.Transitions acc.1,
         madd acc.2 symbol1 ⟨pname, transition⟩)

/-- Outer loop of `Index` (dfa.go:99): process every registered state. -/
def indexStates (full : List (Str × State)) :
    List (Str × State) → SL × EL → Option (SL × EL)
  | [], acc => some acc
  | (_, st) :: rest, acc =>
    match indexTransitions full st.Name st.Transitions acc with
    | none => none
    | some acc1 => indexStates full rest acc1

/-- src/dfa/dfa.go `Index` (dfa.go:96): full rebuild of both lookup maps;
`none` models the runtime fault on a dangling transition target. -/
def DFA.Index (m : DFA) : Option DFA :=
  match indexStates m.States m.States ([], []) with
  | none => none
  | some acc =>
    some { m with StateLookup := acc.1, EdgeLookup := acc.2, Indexed := true }

/-- src/dfa/state.go `ensureIndexed`: build the index when stale. -/
def DFA.ensureIndexed (m : DFA) : Option DFA :=
  if m.Indexed then some m else m.Index

/-- src/dfa/dfa.go `InspectStates` (dfa.go:125): pair-key lookup after
ensuring the index, empty slice when the key is absent. -/
def DFA.InspectStates (m : DFA) (f t : Str) : Option (List Str) :=
  (m.ensureIndexed).map (fun m1 => mgetl m1.StateLookup (buildKey f t))

/-- src/dfa/dfa.go `InspectSymbols` (dfa.go:139): edge lookup for one
symbol after ensuring the index; nil result reads as the empty list. -/
def DFA.InspectSymbols (m : DFA) (symbol : Str) : Option (List Edge) :=
  (m.ensureIndexed).map (fun m1 => mgetl m1.EdgeLookup symbol)

/-- Reasons for the `log.Fatal` calls inside `Run`: they terminate the
host process rather than returning to the caller. -/
inductive FatalReason where
  | noStates
  | noStartState
  | stateNotExistent
deriving DecidableEq

/-- Outcome of `Run`: either a process-terminating `log.Fatal` or the
returned `(path, bool)` pair. -/
inductive RunResult where
  | fatal : FatalReason → RunResult
  | done : List Str → Bool → RunResult
deriving DecidableEq

/-- The token loop of `Run` (dfa.go:161): append the current state to the
path, fault on a missing state, stop with success on a final state, stop
with failure on a missing transition, otherwise advance. -/
def runLoop (states : List (Str × State)) : List Str → Str → List Str → RunResult
  | [], _, path => .done path true
  | token :: rest, current, path =>
    let path1 := path ++ [current]
    match mget states current with
    | none => .fatal .stateNotExistent
    | some st =>
      if st.Final then .done path1 true
      else
        match st.Via token with
        | none => .done path1 false
        | some next => runLoop states rest next path1

/-- src/dfa/dfa.go `Run` (dfa.go:152): fatal on nil state map or an
unregistered start, otherwise the token loop from the start state. -/
def DFA.Run (m : DFA) (tokens : List Str) : RunResult :=
  if m.States = [] then .fatal .noStates
  else
    match mget m.States m.Start with
    | none => .fatal .noStartState
    | some _ => runLoop m.States tokens m.Start []

/-- Whether a byte string contains the two-byte delimiter arrow as a
contiguous substring. -/
def containsDelim : Str → Bool
  | a :: b :: rest => if a = 45 ∧ b = 62 then true else containsDelim (b :: rest)
  | _ => false

/-- Whether, starting from `current`, every token of the list can be
consumed by a transition through existing, non-accepting states: the
traversal of `Run` neither stops early nor faults. -/
def nonFinalChain (states : List (Str × State)) : Str → List Str → Bool
  | _, [] => true
  | current, token :: rest =>
    match mget states current with
    | none => false
    | some st =>
      if st.Final then false
      else
        match st.Via token with
        | none => false
        | some next => nonFinalChain states next rest

/-- The states visited while consuming the token list from `current`,
one entry per token, following the transitions of the graph. -/
def visitedChain (states : List (Str × State)) : Str → List Str → List Str
  | _, [] => []
  | current, token :: rest =>
    match mget states current with
    | none => [current]
    | some st =>
      match st.Via token with
      | none => [current]
      | some next => current :: visitedChain states next rest

/-- Well-formed state map, as Go map semantics guarantee for every
automaton built through `SetState`: every binding keys a state by its own
name, per-state transition symbols are distinct, and state names are
distinct. -/
def WFStates (l : List (Str × State)) : Prop :=
  (∀ pr ∈ l, pr.1 = pr.2.Name ∧ (pr.2.Transitions.map Prod.fst).Nodup)
  ∧ (l.map Prod.fst).Nodup

/-- Every transition symbol appearing in the graph is free of the
composite-key delimiter arrow. -/
def SymbolsDelimFree (l : List (Str × State)) : Prop :=
  ∀ pr ∈ l, ∀ e ∈ pr.2.Transitions, containsDelim e.1 = false

instance wfStatesDecidable (l : List (Str × State)) : Decidable (WFStates l) := by
  unfold WFStates
  infer_instance

instance symbolsDelimFreeDecidable (l : List (Str × State)) :
    Decidable (SymbolsDelimFree l) := by
  unfold SymbolsDelimFree
  infer_instance

/-- The A-go-B-go-C example automaton of the specification: start A,
C accepting. -/
def stateA : State :=
  { Name := strBytes "A", Transitions := [(strBytes "go", strBytes "B")], Final := false }

def stateB : State :=
  { Name := strBytes "B", Transitions := [(strBytes "go", strBytes "C")], Final := false }

def stateC : State :=
  { Name := strBytes "C", Transitions := [], Final := true }

def exABC : DFA :=
  { Name := strBytes "ex",
    States := [(strBytes "A", stateA), (strBytes "B", stateB), (strBytes "C", stateC)],
    StateLookup := [], EdgeLookup := [], Indexed := false,
    Start := strBytes "A" }

/-- Automaton exhibiting the pair-key collision: p reaches q via the
symbol a, and q leaves via a symbol that starts with the delimiter. -/
def stateP : State :=
  { Name := strBytes "p", Transitions := [(strBytes "a", strBytes "q")], Final := false }

def stateQ : State :=
  { Name := strBytes "q", Transitions := [(strBytes "->b", strBytes "r")], Final := false }

def stateR : State :=
  { Name := strBytes "r", Transitions := [], Final := false }

def exCol : DFA :=
  { Name := strBytes "col",
    States := [(strBytes "p", stateP), (strBytes "q", stateQ), (strBytes "r", stateR)],
    StateLookup := [], EdgeLookup := [], Indexed := false,
    Start := strBytes "p" }

/-- `exABC` with a fresh index flag, as after an indexing pass. -/
def exIndexed : DFA := { exABC with Indexed := true }

/-- `exABC` with a start name that is not registered. -/
def exBadStart : DFA := { exABC with Start := strBytes "Z" }

/-- The result of running the indexing pass over `exABC` (it succeeds,
as every transition target of `exABC` is registered). -/
def exABCIdx : DFA := (exABC.Index).getD (NewDFA [])

/-- C1: the claim says `Run` reports precondition failures (no states, or
an unresolved start name) as explicit failure results and never terminates
the host process.  The code instead reaches `log.Fatal` on both failures,
modelled here as the `fatal` outcome, which is a process termination and
not a value returned to the caller.  Both checks do happen before any
traversal. -/
theorem run_fatal_on_misconfiguration :
    (NewDFA (strBytes "m")).Run [strBytes "x"] = .fatal .noStates
  ∧ exBadStart.Run [] = .fatal .noStartState := by decide

/-- C2: when the current state is accepting, the token loop stops at once
with success, appending the current state to the path and leaving every
remaining token unconsumed (the result does not depend on `rest`); and on
the A-go-B-go-C automaton with C accepting, running the two `go` tokens
returns the path `[A, B]` with a success outcome. -/
theorem run_stops_on_accepting_state
    (states : List (Str × State)) (token : Str) (rest : List Str)
    (current : Str) (st : State) (path : List Str)
    (h : mget states current = some st) (hf : st.Final = true) :
    runLoop states (token :: rest) current path = .done (path ++ [current]) true
  ∧ exABC.Run [strBytes "go", strBytes "go"] =
      .done [strBytes "A", strBytes "B"] true := by
  constructor
  · simp [runLoop, h, hf]
  · decide

theorem run_stops_on_accepting_state_instance :
    runLoop exABC.States [strBytes "x"] (strBytes "C") [] =
      .done ([] ++ [strBytes "C"]) true
  ∧ exABC.Run [strBytes "go", strBytes "go"] =
      .done [strBytes "A", strBytes "B"] true :=
  run_stops_on_accepting_state exABC.States (strBytes "x") [] (strBytes "C")
    stateC [] (by decide) (by decide)

/-- C4 counterexample: a fully runnable automaton, an empty token
sequence, and no fatal configuration error, yet the returned path is
empty — the claim promises at least one entry in exactly this case. -/
theorem run_empty_tokens_empty_path : exABC.Run [] = .done [] true := by decide

/-- C5: `Step` fails with the state-not-existent error exactly when the
queried state is unregistered; on a registered state it returns the
transition target with `found = true` when one exists and the empty name
with `found = false` (and no error) when none does. -/
theorem step_unknown_state_iff (m : DFA) (state symbol : Str) :
    (m.Step state symbol = .err errStateNotExistent ↔ m.StateExists state = false)
  ∧ ∀ st, mget m.States state = some st →
      (∀ next, st.Via symbol = some next → m.Step state symbol = .ok next true)
      ∧ (st.Via symbol = none → m.Step state symbol = .ok [] false) := by
  constructor
  · unfold DFA.Step DFA.StateExists
    cases hm : mget m.States state with
    | none => simp [hm]
    | some st => cases hv : st.Via symbol <;> simp [hm, hv]
  · intro st hst
    refine ⟨fun next hn => ?_, fun hn => ?_⟩
    · simp only [DFA.Step, hst, hn]
    · simp only [DFA.Step, hst, hn]

theorem step_unknown_state_iff_instance :
    exABC.Step (strBytes "Z") (strBytes "go") = .err errStateNotExistent
  ∧ exABC.Step (strBytes "A") (strBytes "go") = .ok (strBytes "B") true :=
  ⟨((step_unknown_state_iff exABC (strBytes "Z") (strBytes "go")).1).mpr (by decide),
   ((step_unknown_state_iff exABC (strBytes "A") (strBytes "go")).2 stateA
      (by decide)).1 (strBytes "B") (by decide)⟩

/-- C8 counterexample: the composite pair key collides for two different
symbol pairs, because the delimiter arrow can be part of a symbol: the
pairs (a-arrow, b) and (a, arrow-b) produce the same key. -/
theorem buildKey_collision :
    buildKey (strBytes "a->") (strBytes "b") = buildKey (strBytes "a") (strBytes "->b")
  ∧ ¬(strBytes "a->" = strBytes "a" ∧ strBytes "b" = strBytes "->b") := by decide

/-- C6 counterexample: on `exCol` the query for the ordered pair
(a-arrow, b) returns the state q, although no registered state has any
transition on the symbol a-arrow at all — the pair-key collision makes
the query report a state that is not between the two symbols. -/
theorem inspectStates_delimiter_collision :
    exCol.InspectStates (strBytes "a->") (strBytes "b") = some [strBytes "q"]
  ∧ exCol.States.all (fun pr => (pr.2.Via (strBytes "a->")).isNone) = true := by
  decide

/-- C9: the claim (and the spec's design requirement) says registering a
state marks the derived indexes stale.  The dfa.go:48 revision of
`SetState` leaves the freshness flag untouched — on an already-indexed
automaton it stays `true` — while the state.go:116 revision does reset
it to `false`. -/
theorem setState_stale_flag_divergence :
    (exIndexed.SetStateV0 (NewState (strBytes "D"))).Indexed = true
  ∧ (exIndexed.SetState (NewState (strBytes "D"))).Indexed = false := by decide

/-- The token loop consumes a full chain of existing, non-accepting
states with found transitions by appending the visited states to the path
and reporting success. -/
theorem runLoop_chain (states : List (Str × State)) :
    ∀ (tokens : List Str) (current : Str) (path : List Str),
    nonFinalChain states current tokens = true →
    runLoop states tokens current path =
      .done (path ++ visitedChain states current tokens) true := by
  intro tokens
  induction tokens with
  | nil =>
    intro current path _
    simp [runLoop, visitedChain]
  | cons t ts ih =>
    intro current path hch
    cases hm : mget states current with
    | none => simp only [nonFinalChain, hm] at hch; exact absurd hch (by simp)
    | some st =>
      simp only [nonFinalChain, hm] at hch
      by_cases hf : st.Final = true
      · rw [if_pos hf] at hch; simp at hch
      · rw [if_neg hf] at hch
        cases hv : st.Via t with
        | none => simp only [hv] at hch; exact absurd hch (by simp)
        | some next =>
          simp only [hv] at hch
          simp only [runLoop, visitedChain, hm, hv, if_neg hf]
          rw [ih next (path ++ [current]) hch]
          simp

/-- Whatever the token loop returns through a non-fatal outcome extends
the path it was given. -/
theorem runLoop_done_extends (states : List (Str × State)) :
    ∀ (tokens : List Str) (current : Str) (path p : List Str) (b : Bool),
    runLoop states tokens current path = .done p b → ∃ q, p = path ++ q := by
  intro tokens
  induction tokens with
  | nil =>
    intro current path p b h
    simp only [runLoop] at h
    injection h with h1 h2
    exact ⟨[], by rw [← h1]; simp⟩
  | cons t ts ih =>
    intro current path p b h
    cases hm : mget states current with
    | none => simp only [runLoop, hm] at h; exact absurd h (by simp)
    | some st =>
      simp only [runLoop, hm] at h
      by_cases hf : st.Final = true
      · rw [if_pos hf] at h
        injection h with h1 h2
        exact ⟨[current], h1.symm⟩
      · rw [if_neg hf] at h
        cases hv : st.Via t with
        | none =>
          simp only [hv] at h
          injection h with h1 h2
          exact ⟨[current], h1.symm⟩
        | some next =>
          simp only [hv] at h
          obtain ⟨q, hq⟩ := ih next (path ++ [current]) p b h
          exact ⟨[current] ++ q, by rw [hq]; simp⟩

/-- C3: on a runnable automaton (states registered and a resolving start
name), when the tokens are exhausted without reaching an accepting state
and without a failed transition lookup, `Run` reports success together
with the accumulated path of visited states. -/
theorem run_success_on_exhausted_tokens (m : DFA) (tokens : List Str) (st0 : State)
    (hne : m.States ≠ [])
    (hstart : mget m.States m.Start = some st0)
    (hchain : nonFinalChain m.States m.Start tokens = true) :
    m.Run tokens = .done (visitedChain m.States m.Start tokens) true := by
  unfold DFA.Run
  rw [if_neg hne, hstart]
  rw [runLoop_chain m.States tokens m.Start [] hchain]
  simp

theorem run_success_on_exhausted_tokens_instance :
    exABC.Run [strBytes "go"] =
      .done (visitedChain exABC.States exABC.Start [strBytes "go"]) true :=
  run_success_on_exhausted_tokens exABC [strBytes "go"] stateA (by decide)
    (by decide) (by decide)

/-- C4 amended: whenever `Run` is given at least one token and returns
normally (no fatal configuration error), the returned path is nonempty;
on an empty token sequence the path is empty, as the counterexample
shows. -/
theorem run_nonempty_tokens_path_nonempty (m : DFA) (token : Str) (rest : List Str)
    (p : List Str) (b : Bool)
    (h : m.Run (token :: rest) = .done p b) : p ≠ [] := by
  unfold DFA.Run at h
  by_cases hs : m.States = []
  · rw [if_pos hs] at h; exact absurd h (by simp)
  · rw [if_neg hs] at h
    cases hm : mget m.States m.Start with
    | none => simp only [hm] at h; exact absurd h (by simp)
    | some st =>
      simp only [hm, runLoop] at h
      by_cases hf : st.Final = true
      · rw [if_pos hf] at h
        injection h with h1 h2
        intro hp
        rw [hp] at h1
        exact absurd h1 (by simp)
      · rw [if_neg hf] at h
        cases hv : st.Via token with
        | none =>
          simp only [hv] at h
          injection h with h1 h2
          intro hp
          rw [hp] at h1
          exact absurd h1 (by simp)
        | some next =>
          simp only [hv] at h
          obtain ⟨q, hq⟩ := runLoop_done_extends m.States rest next
            ([] ++ [m.Start]) p b h
          intro hp
          rw [hp] at hq
          exact absurd hq.symm (by simp)

theorem run_nonempty_tokens_path_nonempty_instance :
    [strBytes "A"] ≠ ([] : List Str) :=
  run_nonempty_tokens_path_nonempty exABC (strBytes "go") [] [strBytes "A"] true
    (by decide)

/-- Hex digit characters are distinct over the nibble range. -/
theorem hexDigit_inj_lt : ∀ a b : Fin 16, hexDigit a.val = hexDigit b.val → a = b := by
  decide

/-- Hex encoding of a byte string is injective. -/
theorem hexEncode_inj : ∀ xs ys : Str, hexEncode xs = hexEncode ys → xs = ys := by
  intro xs
  induction xs with
  | nil =>
    intro ys h
    cases ys with
    | nil => rfl
    | cons b rest => simp [hexEncode] at h
  | cons b rest ih =>
    intro ys h
    cases ys with
    | nil => simp [hexEncode] at h
    | cons b' rest' =>
      simp only [hexEncode] at h
      injection h with h1 h23
      injection h23 with h2 h3
      have hb : b.val < 256 := b.isLt
      have hb' : b'.val < 256 := b'.isLt
      have hd := hexDigit_inj_lt ⟨b.val / 16, by omega⟩ ⟨b'.val / 16, by omega⟩ h1
      have hm := hexDigit_inj_lt ⟨b.val % 16, by omega⟩ ⟨b'.val % 16, by omega⟩ h2
      have hd' : b.val / 16 = b'.val / 16 := congrArg Fin.val hd
      have hm' : b.val % 16 = b'.val % 16 := congrArg Fin.val hm
      have hbb : b = b' := by
        apply Fin.ext
        omega
      rw [hbb, ih rest' h3]

/-- A string whose head extension is delimiter-free is delimiter-free. -/
theorem containsDelim_cons_false {a : Byte} {l : Str}
    (h : containsDelim (a :: l) = false) : containsDelim l = false := by
  cases l with
  | nil => rfl
  | cons b rest =>
    simp only [containsDelim] at h
    by_cases hc : a = 45 ∧ b = 62
    · rw [if_pos hc] at h
      exact absurd h (by simp)
    · rw [if_neg hc] at h
      exact h

/-- Joining two strings with the delimiter arrow is injective as long as
the left components do not themselves contain the delimiter. -/
theorem append_delim_inj : ∀ (x x' y y' : Str), containsDelim x = false →
    containsDelim x' = false →
    x ++ directionDelimiter ++ y = x' ++ directionDelimiter ++ y' →
    x = x' ∧ y = y' := by
  intro x
  induction x with
  | nil =>
    intro x' y y' hx hx' h
    cases x' with
    | nil =>
      simp only [directionDelimiter, List.nil_append, List.cons_append] at h
      injection h with _ h2
      injection h2 with _ h3
      exact ⟨rfl, h3⟩
    | cons a xs' =>
      simp only [directionDelimiter, List.nil_append, List.cons_append] at h
      injection h with h1 h2
      cases xs' with
      | nil =>
        simp only [List.nil_append, List.cons_append] at h2
        injection h2 with h3 _
        exact absurd h3 (by decide)
      | cons b xs'' =>
        simp only [List.cons_append] at h2
        injection h2 with h3 _
        exfalso
        rw [← h1, ← h3] at hx'
        simp [containsDelim] at hx'
  | cons a xs ih =>
    intro x' y y' hx hx' h
    cases x' with
    | nil =>
      simp only [directionDelimiter, List.nil_append, List.cons_append] at h
      injection h with h1 h2
      cases xs with
      | nil =>
        simp only [List.nil_append, List.cons_append] at h2
        injection h2 with h3 _
        exact absurd h3 (by decide)
      | cons b xs'' =>
        simp only [List.cons_append] at h2
        injection h2 with h3 _
        exfalso
        rw [h1, h3] at hx
        simp [containsDelim] at hx
    | cons a' xs' =>
      simp only [List.cons_append] at h
      injection h with h1 h2
      have hrec := ih xs' y y' (containsDelim_cons_false hx)
        (containsDelim_cons_false hx') h2
      exact ⟨by rw [h1, hrec.1], hrec.2⟩

/-- The composite pair key is injective on symbol pairs whose left
components are delimiter-free. -/
theorem buildKey_inj_aux (s1 s2 s1' s2' : Str)
    (h1 : containsDelim s1 = false) (h1' : containsDelim s1' = false)
    (h : buildKey s1 s2 = buildKey s1' s2') : s1 = s1' ∧ s2 = s2' := by
  unfold buildKey at h
  exact append_delim_inj s1 s1' s2 s2' h1 h1' (hexEncode_inj _ _ h)

/-- C8 amended: the composite pair key is order-sensitive and injective
for symbol pairs whose first components do not contain the delimiter
arrow; without that restriction it collides, as the counterexample
shows. -/
theorem buildKey_injective_delimFree (s1 s2 s1' s2' : Str)
    (h1 : containsDelim s1 = false) (h1' : containsDelim s1' = false)
    (h : buildKey s1 s2 = buildKey s1' s2') : s1 = s1' ∧ s2 = s2' :=
  buildKey_inj_aux s1 s2 s1' s2' h1 h1' h

theorem buildKey_injective_delimFree_instance :
    strBytes "go" = strBytes "go" ∧ strBytes "stop" = strBytes "stop" :=
  buildKey_injective_delimFree (strBytes "go") (strBytes "stop")
    (strBytes "go") (strBytes "stop") (by decide) (by decide) rfl

/-- A successful map read exhibits a binding of the list. -/
theorem mget_mem {κ α : Type} [DecidableEq κ] :
    ∀ (l : List (κ × α)) (k : κ) (v : α), mget l k = some v → (k, v) ∈ l := by
  intro l
  induction l with
  | nil => intro k v h; simp [mget] at h
  | cons kv rest ih =>
    intro k v h
    obtain ⟨k', v'⟩ := kv
    simp only [mget] at h
    by_cases he : k' = k
    · rw [if_pos he] at h
      injection h with h1
      rw [← he, ← h1]
      exact List.mem_cons_self _ _
    · rw [if_neg he] at h
      exact List.mem_cons_of_mem _ (ih k v h)

/-- On a list with distinct keys, bindings and successful reads agree. -/
theorem mem_mget_of_nodup {κ α : Type} [DecidableEq κ] :
    ∀ (l : List (κ × α)), (l.map Prod.fst).Nodup →
    ∀ (k : κ) (v : α), ((k, v) ∈ l ↔ mget l k = some v) := by
  intro l
  induction l with
  | nil => intro _ k v; simp [mget]
  | cons kv rest ih =>
    intro hnd k v
    obtain ⟨k', v'⟩ := kv
    simp only [List.map_cons, List.nodup_cons] at hnd
    obtain ⟨hk', hnd'⟩ := hnd
    simp only [List.mem_cons, mget]
    by_cases he : k' = k
    · subst he
      rw [if_pos rfl]
      constructor
      · rintro (h | h)
        · rw [Prod.mk.injEq] at h
          rw [h.2]
        · exact absurd (List.mem_map.mpr ⟨(k', v), h, rfl⟩) hk'
      · intro h
        injection h with h1
        left
        rw [h1]
    · rw [if_neg he]
      rw [← ih hnd' k v]
      constructor
      · rintro (h | h)
        · rw [Prod.mk.injEq] at h
          exact absurd h.1.symm he
        · exact h
      · intro h
        exact Or.inr h

/-- Membership in a slice-valued map after one append. -/
theorem mem_mgetl_madd {κ β : Type} [DecidableEq κ] :
    ∀ (m : List (κ × List β)) (k : κ) (v : β) (k' : κ) (x : β),
    (x ∈ mgetl (madd m k v) k' ↔ x ∈ mgetl m k' ∨ (k' = k ∧ x = v)) := by
  intro m
  induction m with
  | nil =>
    intro k v k' x
    have he' : (k' = k) ↔ (k = k') := eq_comm
    simp only [madd, mgetl, mget]
    by_cases he : k = k'
    · rw [if_pos he]
      simp [he.symm]
    · rw [if_neg he]
      simp
      exact fun hh => absurd hh.symm he
  | cons kvs rest ih =>
    intro k v k' x
    obtain ⟨k0, vs⟩ := kvs
    simp only [madd]
    by_cases he : k0 = k
    · subst he
      rw [if_pos rfl]
      simp only [mgetl, mget]
      by_cases he2 : k0 = k'
      · subst he2
        rw [if_pos rfl, if_pos rfl]
        simp
      · rw [if_neg he2, if_neg he2]
        simp
        exact fun hh _ => absurd hh.symm he2
    · rw [if_neg he]
      simp only [mgetl, mget]
      by_cases he2 : k0 = k'
      · subst he2
        rw [if_pos rfl, if_pos rfl]
        simp [fun hh : k0 = k => he hh]
      · rw [if_neg he2, if_neg he2]
        exact ih k v k' x

/-- Membership in the state-pair map after processing the outgoing
transitions of one target state. -/
theorem mem_mgetl_slAdd (symbol1 transition : Str) :
    ∀ (l : List (Str × Str)) (sl : SL) (k : List Char) (x : Str),
    (x ∈ mgetl (slAdd symbol1 transition l sl) k ↔
      x ∈ mgetl sl k ∨ ∃ e ∈ l, k = buildKey symbol1 e.1 ∧ x = transition) := by
  intro l
  induction l with
  | nil => intro sl k x; simp [slAdd]
  | cons e rest ih =>
    intro sl k x
    obtain ⟨s2, d⟩ := e
    simp only [slAdd]
    rw [ih, mem_mgetl_madd]
    simp only [List.mem_cons]
    constructor
    · rintro ((hx | ⟨h1, h2⟩) | ⟨e', he', h1, h2⟩)
      · exact Or.inl hx
      · exact Or.inr ⟨(s2, d), Or.inl rfl, h1, h2⟩
      · exact Or.inr ⟨e', Or.inr he', h1, h2⟩
    · rintro (hx | ⟨e', (he' | he'), h1, h2⟩)
      · exact Or.inl (Or.inl hx)
      · subst he'
        exact Or.inl (Or.inr ⟨h1, h2⟩)
      · exact Or.inr ⟨e', he', h1, h2⟩

/-- Edge-map membership after processing the transitions of one state:
exactly the prior entries plus one edge per processed transition. -/
theorem el_indexTransitions_mem (full : List (Str × State)) (pname : Str) :
    ∀ (l : List (Str × Str)) (acc acc' : SL × EL),
    indexTransitions full pname l acc = some acc' →
    ∀ (s : Str) (ed : Edge),
    (ed ∈ mgetl acc'.2 s ↔ ed ∈ mgetl acc.2 s ∨
      ∃ tr, (s, tr) ∈ l ∧ ed = ⟨pname, tr⟩) := by
  intro l
  induction l with
  | nil =>
    intro acc acc' h s ed
    simp only [indexTransitions] at h
    injection h with h1
    subst h1
    simp
  | cons e0 rest ih =>
    intro acc acc' h s ed
    obtain ⟨symbol1, transition⟩ := e0
    cases hq : mget full transition with
    | none =>
      simp only [indexTransitions, hq] at h
      exact absurd h (by simp)
    | some q =>
      simp only [indexTransitions, hq] at h
      rw [ih _ acc' h s ed, mem_mgetl_madd]
      simp only [List.mem_cons]
      constructor
      · rintro ((hx | ⟨h1, h2⟩) | ⟨tr, htr, h2⟩)
        · exact Or.inl hx
        · exact Or.inr ⟨transition, Or.inl (by rw [h1]), h2⟩
        · exact Or.inr ⟨tr, Or.inr htr, h2⟩
      · rintro (hx | ⟨tr, (htr | htr), h2⟩)
        · exact Or.inl (Or.inl hx)
        · rw [Prod.mk.injEq] at htr
          exact Or.inl (Or.inr ⟨htr.1, by rw [h2, htr.2]⟩)
        · exact Or.inr ⟨tr, htr, h2⟩

/-- Pair-key-map membership after processing the transitions of one
state: the prior entries plus, for every processed transition into an
existing target, one record per outgoing symbol of that target. -/
theorem sl_indexTransitions_mem (full : List (Str × State)) (pname : Str) :
    ∀ (l : List (Str × Str)) (acc acc' : SL × EL),
    indexTransitions full pname l acc = some acc' →
    ∀ (k : List Char) (x : Str),
    (x ∈ mgetl acc'.1 k ↔ x ∈ mgetl acc.1 k ∨
      ∃ s1, (s1, x) ∈ l ∧ ∃ q, mget full x = some q ∧
        ∃ s2 d, (s2, d) ∈ q.Transitions ∧ k = buildKey s1 s2) := by
  intro l
  induction l with
  | nil =>
    intro acc acc' h k x
    simp only [indexTransitions] at h
    injection h with h1
    subst h1
    simp
  | cons e0 rest ih =>
    intro acc acc' h k x
    obtain ⟨symbol1, transition⟩ := e0
    cases hq : mget full transition with
    | none =>
      simp only [indexTransitions, hq] at h
      exact absurd h (by simp)
    | some q0 =>
      simp only [indexTransitions, hq] at h
      rw [ih _ acc' h k x, mem_mgetl_slAdd]
      simp only [List.mem_cons]
      constructor
      · rintro ((hx | ⟨e2, he2, h1, h2⟩) | ⟨s1, hmem, q', hq', s2, d, he2, h1⟩)
        · exact Or.inl hx
        · subst h2
          exact Or.inr ⟨symbol1, Or.inl rfl, q0, hq, e2.1, e2.2,
            by rw [Prod.mk.eta]; exact he2, h1⟩
        · exact Or.inr ⟨s1, Or.inr hmem, q', hq', s2, d, he2, h1⟩
      · rintro (hx | ⟨s1, (hmem | hmem), q', hq', s2, d, he2, h1⟩)
        · exact Or.inl (Or.inl hx)
        · rw [Prod.mk.injEq] at hmem
          obtain ⟨hs1, hx1⟩ := hmem
          subst hs1
          subst hx1
          rw [hq] at hq'
          injection hq' with hq''
          subst hq''
          exact Or.inl (Or.inr ⟨(s2, d), he2, h1, rfl⟩)
        · exact Or.inr ⟨s1, hmem, q', hq', s2, d, he2, h1⟩

/-- Edge-map membership after the full indexing pass over a state list. -/
theorem el_indexStates_mem (full : List (Str × State)) :
    ∀ (l : List (Str × State)) (acc acc' : SL × EL),
    indexStates full l acc = some acc' →
    ∀ (s : Str) (ed : Edge),
    (ed ∈ mgetl acc'.2 s ↔ ed ∈ mgetl acc.2 s ∨
      ∃ kst st, (kst, st) ∈ l ∧ ∃ tr, (s, tr) ∈ st.Transitions ∧
        ed = ⟨st.Name, tr⟩) := by
  intro l
  induction l with
  | nil =>
    intro acc acc' h s ed
    simp only [indexStates] at h
    injection h with h1
    subst h1
    simp
  | cons pr rest ih =>
    intro acc acc' h s ed
    obtain ⟨k0, st0⟩ := pr
    cases hit : indexTransitions full st0.Name st0.Transitions acc with
    | none =>
      simp only [indexStates, hit] at h
      exact absurd h (by simp)
    | some acc1 =>
      simp only [indexStates, hit] at h
      rw [ih acc1 acc' h s ed,
        el_indexTransitions_mem full st0.Name st0.Transitions acc acc1 hit s ed]
      simp only [List.mem_cons]
      constructor
      · rintro ((hx | ⟨tr, htr, h2⟩) | ⟨kst, st, hmem, tr, htr, h2⟩)
        · exact Or.inl hx
        · exact Or.inr ⟨k0, st0, Or.inl rfl, tr, htr, h2⟩
        · exact Or.inr ⟨kst, st, Or.inr hmem, tr, htr, h2⟩
      · rintro (hx | ⟨kst, st, (hmem | hmem), tr, htr, h2⟩)
        · exact Or.inl (Or.inl hx)
        · rw [Prod.mk.injEq] at hmem
          obtain ⟨h3, h4⟩ := hmem
          subst h3
          subst h4
          exact Or.inl (Or.inr ⟨tr, htr, h2⟩)
        · exact Or.inr ⟨kst, st, hmem, tr, htr, h2⟩

/-- Pair-key-map membership after the full indexing pass. -/
theorem sl_indexStates_mem (full : List (Str × State)) :
    ∀ (l : List (Str × State)) (acc acc' : SL × EL),
    indexStates full l acc = some acc' →
    ∀ (k : List Char) (x : Str),
    (x ∈ mgetl acc'.1 k ↔ x ∈ mgetl acc.1 k ∨
      ∃ kst st, (kst, st) ∈ l ∧ ∃ s1, (s1, x) ∈ st.Transitions ∧
        ∃ q, mget full x = some q ∧
          ∃ s2 d, (s2, d) ∈ q.Transitions ∧ k = buildKey s1 s2) := by
  intro l
  induction l with
  | nil =>
    intro acc acc' h k x
    simp only [indexStates] at h
    injection h with h1
    subst h1
    simp
  | cons pr rest ih =>
    intro acc acc' h k x
    obtain ⟨k0, st0⟩ := pr
    cases hit : indexTransitions full st0.Name st0.Transitions acc with
    | none =>
      simp only [indexStates, hit] at h
      exact absurd h (by simp)
    | some acc1 =>
      simp only [indexStates, hit] at h
      rw [ih acc1 acc' h k x,
        sl_indexTransitions_mem full st0.Name st0.Transitions acc acc1 hit k x]
      simp only [List.mem_cons]
      constructor
      · rintro ((hx | ⟨s1, htr, q, hq, s2, d, he2, h1⟩) |
          ⟨kst, st, hmem, s1, htr, q, hq, s2, d, he2, h1⟩)
        · exact Or.inl hx
        · exact Or.inr ⟨k0, st0, Or.inl rfl, s1, htr, q, hq, s2, d, he2, h1⟩
        · exact Or.inr ⟨kst, st, Or.inr hmem, s1, htr, q, hq, s2, d, he2, h1⟩
      · rintro (hx | ⟨kst, st, (hmem | hmem), s1, htr, q, hq, s2, d, he2, h1⟩)
        · exact Or.inl (Or.inl hx)
        · rw [Prod.mk.injEq] at hmem
          obtain ⟨h3, h4⟩ := hmem
          subst h3
          subst h4
          exact Or.inl (Or.inr ⟨s1, htr, q, hq, s2, d, he2, h1⟩)
        · exact Or.inr ⟨kst, st, hmem, s1, htr, q, hq, s2, d, he2, h1⟩

/-- The middle indexing loop faults exactly when one of the transitions
it processes names an unregistered target. -/
theorem indexTransitions_eq_none_iff (full : List (Str × State)) (pname : Str) :
    ∀ (l : List (Str × Str)) (acc : SL × EL),
    (indexTransitions full pname l acc = none ↔
      ∃ s1 tr, (s1, tr) ∈ l ∧ mget full tr = none) := by
  intro l
  induction l with
  | nil => intro acc; simp [indexTransitions]
  | cons e0 rest ih =>
    intro acc
    obtain ⟨symbol1, transition⟩ := e0
    cases hq : mget full transition with
    | none =>
      simp only [indexTransitions, hq]
      constructor
      · intro _
        exact ⟨symbol1, transition, List.mem_cons_self _ _, hq⟩
      · intro _
        trivial
    | some q =>
      simp only [indexTransitions, hq]
      rw [ih]
      constructor
      · rintro ⟨s1, tr, htr, hno⟩
        exact ⟨s1, tr, List.mem_cons_of_mem _ htr, hno⟩
      · rintro ⟨s1, tr, htr, hno⟩
        rcases List.mem_cons.mp htr with heq | hmem
        · rw [Prod.mk.injEq] at heq
          exfalso
          rw [heq.2, hq] at hno
          exact absurd hno (by simp)
        · exact ⟨s1, tr, hmem, hno⟩

/-- The full indexing pass faults exactly when some processed state has a
transition to an unregistered target. -/
theorem indexStates_eq_none_iff (full : List (Str × State)) :
    ∀ (l : List (Str × State)) (acc : SL × EL),
    (indexStates full l acc = none ↔
      ∃ kst st, (kst, st) ∈ l ∧ ∃ s1 tr, (s1, tr) ∈ st.Transitions ∧
        mget full tr = none) := by
  intro l
  induction l with
  | nil => intro acc; simp [indexStates]
  | cons pr rest ih =>
    intro acc
    obtain ⟨k0, st0⟩ := pr
    cases hit : indexTransitions full st0.Name st0.Transitions acc with
    | none =>
      simp only [indexStates, hit]
      constructor
      · intro _
        obtain ⟨s1, tr, htr, hno⟩ :=
          (indexTransitions_eq_none_iff full st0.Name st0.Transitions acc).mp hit
        exact ⟨k0, st0, List.mem_cons_self _ _, s1, tr, htr, hno⟩
      · intro _
        trivial
    | some acc1 =>
      simp only [indexStates, hit]
      rw [ih]
      constructor
      · rintro ⟨kst, st, hmem, s1, tr, htr, hno⟩
        exact ⟨kst, st, List.mem_cons_of_mem _ hmem, s1, tr, htr, hno⟩
      · rintro ⟨kst, st, hmem, s1, tr, htr, hno⟩
        rcases List.mem_cons.mp hmem with heq | hmem'
        · rw [Prod.mk.injEq] at heq
          exfalso
          have : indexTransitions full st0.Name st0.Transitions acc = none := by
            rw [indexTransitions_eq_none_iff]
            refine ⟨s1, tr, ?_, hno⟩
            rw [← heq.2]
            exact htr
          rw [this] at hit
          exact absurd hit (by simp)
        · exact ⟨kst, st, hmem', s1, tr, htr, hno⟩

/-- `Index` returns nothing exactly when the underlying pass faults. -/
theorem Index_eq_none_iff_pass (m : DFA) :
    (m.Index = none ↔ indexStates m.States m.States ([], []) = none) := by
  unfold DFA.Index
  cases hi : indexStates m.States m.States ([], []) with
  | none => simp [hi]
  | some acc => simp [hi]

/-- Shape of a successful `Index`: the lookup maps are the pass results,
the freshness flag is set, and the state map is untouched. -/
theorem Index_some_inv (m m' : DFA) (h : m.Index = some m') :
    ∃ acc, indexStates m.States m.States ([], []) = some acc ∧
      m'.States = m.States ∧ m'.Indexed = true ∧
      m'.StateLookup = acc.1 ∧ m'.EdgeLookup = acc.2 := by
  unfold DFA.Index at h
  cases hi : indexStates m.States m.States ([], []) with
  | none =>
    simp only [hi] at h
    exact absurd h (by simp)
  | some acc =>
    simp only [hi] at h
    injection h with h1
    refine ⟨acc, rfl, ?_, ?_, ?_, ?_⟩ <;> rw [← h1]

/-- C10: the index build faults (the nil-state dereference, modelled as
the `none` outcome) exactly when some registered state stores a
transition whose target is not registered; in particular, when every
transition target resolves, the pass completes and the faulting branch
is unreachable. -/
theorem index_faults_iff_dangling (m : DFA) :
    (m.Index = none ↔ ∃ kst st, (kst, st) ∈ m.States ∧
      ∃ s1 tr, (s1, tr) ∈ st.Transitions ∧ mget m.States tr = none) := by
  rw [Index_eq_none_iff_pass, indexStates_eq_none_iff]

/-- C7: after a successful index build over a well-formed state map, the
edge query for a symbol holds the edge (f, t) exactly when the registered
state named f has a transition on that symbol to t; for a symbol
labelling no transition the same equivalence leaves the result empty. -/
theorem inspectSymbols_edges_spec (m m' : DFA) (hIdx : m.Index = some m')
    (hwf : WFStates m.States) (s f t : Str) :
    ∃ es, m'.InspectSymbols s = some es ∧
      ((⟨f, t⟩ : Edge) ∈ es ↔
        ∃ st, mget m.States f = some st ∧ st.Via s = some t) := by
  obtain ⟨acc, hacc, hst, hind, hsl, hel⟩ := Index_some_inv m m' hIdx
  refine ⟨mgetl m'.EdgeLookup s, ?_, ?_⟩
  · unfold DFA.InspectSymbols DFA.ensureIndexed
    rw [hind]
    simp
  · rw [hel]
    rw [el_indexStates_mem m.States m.States ([], []) acc hacc s ⟨f, t⟩]
    simp only [mgetl, mget, Option.getD_none, List.not_mem_nil, false_or]
    constructor
    · rintro ⟨kst, st, hmem, tr, htr, hed⟩
      rw [Edge.mk.injEq] at hed
      obtain ⟨hf, ht⟩ := hed
      have hname : kst = st.Name := (hwf.1 (kst, st) hmem).1
      have hndTr : (st.Transitions.map Prod.fst).Nodup := (hwf.1 (kst, st) hmem).2
      refine ⟨st, ?_, ?_⟩
      · rw [hf, ← hname]
        exact (mem_mget_of_nodup m.States hwf.2 kst st).mp hmem
      · show mget st.Transitions s = some t
        rw [ht]
        exact (mem_mget_of_nodup st.Transitions hndTr s tr).mp htr
    · rintro ⟨st, hlook, hvia⟩
      have hmem : (f, st) ∈ m.States := mget_mem m.States f st hlook
      have hname : f = st.Name := (hwf.1 (f, st) hmem).1
      have hmemTr : (s, t) ∈ st.Transitions := mget_mem st.Transitions s t hvia
      exact ⟨f, st, hmem, t, hmemTr, by rw [Edge.mk.injEq]; exact ⟨hname, rfl⟩⟩

theorem inspectSymbols_edges_spec_instance :
    ∃ es, exABCIdx.InspectSymbols (strBytes "go") = some es ∧
      ((⟨strBytes "A", strBytes "B"⟩ : Edge) ∈ es ↔
        ∃ st, mget exABC.States (strBytes "A") = some st ∧
          st.Via (strBytes "go") = some (strBytes "B")) :=
  inspectSymbols_edges_spec exABC exABCIdx (by decide) (by decide)
    (strBytes "go") (strBytes "A") (strBytes "B")

/-- C6 amended: after a successful index build over a well-formed state
map whose transition symbols are delimiter-free, and for a queried first
symbol that is delimiter-free, the pair query for (s1, s2) holds exactly
the states x such that some registered state reaches x via s1 and x has
an outgoing s2 transition (an order-sensitive characterisation); without
the delimiter restriction the pair key collides and the query can report
unrelated states, as the counterexample shows. -/
theorem inspectStates_between_spec (m m' : DFA) (hIdx : m.Index = some m')
    (hwf : WFStates m.States) (hsy : SymbolsDelimFree m.States)
    (s1 s2 : Str) (hs1 : containsDelim s1 = false) (x : Str) :
    ∃ res, m'.InspectStates s1 s2 = some res ∧
      (x ∈ res ↔ ∃ st, mget m.States st.Name = some st ∧
        st.Via s1 = some x ∧
        ∃ q, mget m.States x = some q ∧ ∃ d, q.Via s2 = some d) := by
  obtain ⟨acc, hacc, hst, hind, hsl, hel⟩ := Index_some_inv m m' hIdx
  refine ⟨mgetl m'.StateLookup (buildKey s1 s2), ?_, ?_⟩
  · unfold DFA.InspectStates DFA.ensureIndexed
    rw [hind]
    simp
  · rw [hsl]
    rw [sl_indexStates_mem m.States m.States ([], []) acc hacc (buildKey s1 s2) x]
    simp only [mgetl, mget, Option.getD_none, List.not_mem_nil, false_or]
    constructor
    · rintro ⟨kst, st, hmem, s1', htr, q, hq, s2', d, he2, hkey⟩
      have hdf : containsDelim s1' = false := hsy (kst, st) hmem (s1', x) htr
      obtain ⟨h1, h2⟩ := buildKey_inj_aux s1 s2 s1' s2' hs1 hdf hkey
      subst h1
      subst h2
      have hname : kst = st.Name := (hwf.1 (kst, st) hmem).1
      have hnd : (st.Transitions.map Prod.fst).Nodup := (hwf.1 (kst, st) hmem).2
      have hqmem : (x, q) ∈ m.States := mget_mem m.States x q hq
      have hqnd : (q.Transitions.map Prod.fst).Nodup := (hwf.1 (x, q) hqmem).2
      refine ⟨st, ?_, ?_, q, hq, d, ?_⟩
      · rw [← hname]
        exact (mem_mget_of_nodup m.States hwf.2 kst st).mp hmem
      · show mget st.Transitions s1 = some x
        exact (mem_mget_of_nodup st.Transitions hnd s1 x).mp htr
      · show mget q.Transitions s2 = some d
        exact (mem_mget_of_nodup q.Transitions hqnd s2 d).mp he2
    · rintro ⟨st, hlook, hvia, q, hq, d, hd⟩
      exact ⟨st.Name, st, mget_mem m.States st.Name st hlook, s1,
        mget_mem st.Transitions s1 x hvia, q, hq, s2, d,
        mget_mem q.Transitions s2 d hd, rfl⟩

theorem inspectStates_between_spec_instance :
    ∃ res, exABCIdx.InspectStates (strBytes "go") (strBytes "go") = some res ∧
      (strBytes "B" ∈ res ↔ ∃ st, mget exABC.States st.Name = some st ∧
        st.Via (strBytes "go") = some (strBytes "B") ∧
        ∃ q, mget exABC.States (strBytes "B") = some q ∧
          ∃ d, q.Via (strBytes "go") = some d) :=
  inspectStates_between_spec exABC exABCIdx (by decide) (by decide) (by decide)
    (strBytes "go") (strBytes "go") (by decide) (strBytes "B")

end GopherState
